import Mathlib

/-!
Shallow embedding of `src/trng.c`, the TRNG library for the Renesas RA4M1
SCE5 peripheral (Arduino UNO R4).

Modelling conventions:
* The hardware entropy source (`HW_SCE_RNG_Read`) is an environment
  `σ : Nat → Option Block`: the k-th hardware read either delivers a
  128-bit block (`some b`, each word stored as a 32-bit value, hence
  reduced mod 2^32) or fails (`none`).  Each embedded operation takes the
  index `k` of the next hardware read and reports how many reads it
  performed.
* The process-wide readiness flag `_initialized` is passed explicitly as a
  `Bool` argument; out-pointers are modelled by a `Bool` nullness flag
  plus an `Option` result value (`none` = the location was never written).
* The unbounded rejection-sampling loop of `trng_randomRange` is embedded
  with fuel: the result is `none` when the loop has not produced an answer
  within `fuel` iterations (the C loop is still running), and
  `some ⟨ok, out, reads⟩` otherwise.
* `TRNG_OK`/`TRNG_NOK` return codes become the Bool `ok` field
  (`true` = `TRNG_OK`).
-/

namespace Trng

/-- `2^32`, the modulus of `uint32_t` arithmetic. -/
def U32 : Nat := 2 ^ 32

/-- `UINT32_MAX`. -/
def U32MAX : Nat := U32 - 1

/-- One 128-bit entropy block: four 32-bit words in source order
(`buf[0] .. buf[3]` of `trng.c`). -/
structure Block where
  w0 : Nat
  w1 : Nat
  w2 : Nat
  w3 : Nat
  deriving Repr, DecidableEq, Inhabited

/-- Reduce every word of a block mod `2^32`: the hardware delivers genuine
`uint32_t` values, so a block entering the program is stored reduced. -/
def normBlock (b : Block) : Block :=
  ⟨b.w0 % U32, b.w1 % U32, b.w2 % U32, b.w3 % U32⟩

/-- Result of one embedded scalar operation: `ok` is the return code
(`true` = `TRNG_OK`), `out` the value written through the out-pointer
(`none` = never written), `reads` the number of hardware block reads
performed. -/
structure Res (α : Type) where
  ok : Bool
  out : Option α
  reads : Nat
  deriving Repr, DecidableEq

/-- `trng_read128`: requires the readiness flag and a non-null pointer,
then performs one hardware read. -/
def trng_read128 (initialized outNull : Bool) (σ : Nat → Option Block)
    (k : Nat) : Res Block :=
  if initialized && !outNull then
    match σ k with
    | some b => ⟨true, some (normBlock b), 1⟩
    | none => ⟨false, none, 1⟩
  else ⟨false, none, 0⟩

/-- `trng_random32`: one `trng_read128` into a local buffer, then
`*out = buf[0]` on success. -/
def trng_random32 (initialized outNull : Bool) (σ : Nat → Option Block)
    (k : Nat) : Res Nat :=
  if outNull then ⟨false, none, 0⟩
  else
    let r := trng_read128 initialized false σ k
    if r.ok then
      match r.out with
      | some b => ⟨true, some b.w0, r.reads⟩
      | none => ⟨false, none, r.reads⟩
    else ⟨false, none, r.reads⟩

/-- `trng_random16`: draws 32 bits via `trng_random32` and keeps
`val & 0xFFFF` (written `% 2^16`). -/
def trng_random16 (initialized outNull : Bool) (σ : Nat → Option Block)
    (k : Nat) : Res Nat :=
  if outNull then ⟨false, none, 0⟩
  else
    let r := trng_random32 initialized false σ k
    if r.ok then
      match r.out with
      | some v => ⟨true, some (v % 2 ^ 16), r.reads⟩
      | none => ⟨false, none, r.reads⟩
    else ⟨false, none, r.reads⟩

/-- `trng_random8`: draws 32 bits via `trng_random32` and keeps
`val & 0xFF` (written `% 2^8`). -/
def trng_random8 (initialized outNull : Bool) (σ : Nat → Option Block)
    (k : Nat) : Res Nat :=
  if outNull then ⟨false, none, 0⟩
  else
    let r := trng_random32 initialized false σ k
    if r.ok then
      match r.out with
      | some v => ⟨true, some (v % 2 ^ 8), r.reads⟩
      | none => ⟨false, none, r.reads⟩
    else ⟨false, none, r.reads⟩

/-- `range = (max - min) + 1U` in `uint32_t` arithmetic (the function body
computes it only after checking `min <= max`, so `Nat` subtraction agrees
with the C subtraction). -/
def rangeOf (minv maxv : Nat) : Nat := (maxv - minv + 1) % U32

/-- `threshold = (UINT32_MAX - range + 1U) % range` in `uint32_t`
wrapping arithmetic. -/
def thresholdOf (range : Nat) : Nat := (U32MAX - range + 1) % U32 % range

/-- The rejection-sampling `while` loop of `trng_randomRange`: draw via
`trng_random32`; abort on a failed draw; accept the first draw
`val >= threshold`, writing `min + (val % range)`.  Result `none` means
the loop is still running after `fuel` iterations; `some (v?, n)` means
the loop exited with `n` hardware reads and wrote `v?` (`none` = draw
failure, result `TRNG_NOK`). -/
def rangeLoop (initialized : Bool) (σ : Nat → Option Block)
    (minv range threshold : Nat) : Nat → Nat → Option (Option Nat × Nat)
  | 0, _ => none
  | fuel + 1, k =>
    let r := trng_random32 initialized false σ k
    if r.ok then
      match r.out with
      | some val =>
        if threshold ≤ val then
          some (some (minv + val % range), r.reads)
        else
          match rangeLoop initialized σ minv range threshold fuel (k + r.reads) with
          | none => none
          | some (v, n) => some (v, n + r.reads)
      | none => some (none, r.reads)
    else some (none, r.reads)

/-- `trng_randomRange`: null / `min > max` guard, full-domain shortcut
when `range` wraps to `0`, otherwise the rejection loop. -/
def trng_randomRange (initialized outNull : Bool) (minv maxv : Nat)
    (σ : Nat → Option Block) (fuel k : Nat) : Option (Res Nat) :=
  if outNull then some ⟨false, none, 0⟩
  else if minv ≤ maxv then
    let range := rangeOf minv maxv
    if range = 0 then
      some (trng_random32 initialized false σ k)
    else
      let threshold := thresholdOf range
      match rangeLoop initialized σ minv range threshold fuel k with
      | none => none
      | some (v, n) => some ⟨v.isSome, v, n⟩
  else some ⟨false, none, 0⟩

/-- The byte representation of a 32-bit word on the target (little-endian
Cortex-M4): `(const uint8_t *)tmp` reads each word low byte first. -/
def wordBytes (w : Nat) : List Nat :=
  [w % 2 ^ 8, w / 2 ^ 8 % 2 ^ 8, w / 2 ^ 16 % 2 ^ 8, w / 2 ^ 24 % 2 ^ 8]

/-- The 16-byte representation of a block, words in source order. -/
def blockBytes (b : Block) : List Nat :=
  wordBytes b.w0 ++ wordBytes b.w1 ++ wordBytes b.w2 ++ wordBytes b.w3

/-- Write the bytes `bs` into `buf` starting at position `i`
(the inner `for` loop of `trng_fillRandom`). -/
def writeBytes (buf : List Nat) (i : Nat) (bs : List Nat) : List Nat :=
  buf.take i ++ bs ++ buf.drop (i + bs.length)

/-- The `while` loop of `trng_fillRandom`: while `i < len`, read one block
(abort on failure), copy `chunk = min(len - i, 16)` of its bytes to
position `i`.  Returns the result code, the final buffer and the number of
hardware reads. -/
def fillLoop (σ : Nat → Option Block) (len : Nat) (k i : Nat)
    (buf : List Nat) : Bool × List Nat × Nat :=
  if _h : i < len then
    match σ k with
    | none => (false, buf, 1)
    | some b =>
      let chunk := if len - i < 16 then len - i else 16
      let r := fillLoop σ len (k + 1) (i + chunk)
        (writeBytes buf i ((blockBytes (normBlock b)).take chunk))
      (r.1, r.2.1, r.2.2 + 1)
  else (true, buf, 0)
  termination_by len - i
  decreasing_by split <;> omega

/-- `trng_fillRandom`: readiness / null guard, then the fill loop from
cursor `0`. -/
def trng_fillRandom (initialized bufNull : Bool) (σ : Nat → Option Block)
    (k : Nat) (buf : List Nat) (len : Nat) : Bool × List Nat × Nat :=
  if initialized && !bufNull then fillLoop σ len k 0 buf
  else (false, buf, 0)

/-- The bytes a successful fill of `len` bytes deposits, reading blocks
`σ k, σ (k+1), …`: each iteration contributes `min (len, 16)` bytes of one
block. -/
def expectedFill (σ : Nat → Option Block) (k len : Nat) : List Nat :=
  if _h : len = 0 then []
  else
    let chunk := if len < 16 then len else 16
    (blockBytes (normBlock ((σ k).getD default))).take chunk ++
      expectedFill σ (k + 1) (len - chunk)
  termination_by len
  decreasing_by split <;> omega

/-- The bytes deposited by `m` successful full-block iterations starting
at read index `k`. -/
def fullBlocksBytes (σ : Nat → Option Block) (k : Nat) : Nat → List Nat
  | 0 => []
  | m + 1 => blockBytes (normBlock ((σ k).getD default)) ++ fullBlocksBytes σ (k + 1) m

/-! ### Basic facts about the embedded operations -/

/-- A successful hardware read makes `trng_random32` return the first
word of the (32-bit reduced) block with one read. -/
theorem random32_some (σ : Nat → Option Block) (k : Nat) (b : Block)
    (h : σ k = some b) :
    trng_random32 true false σ k = ⟨true, some (b.w0 % U32), 1⟩ := by
  simp [trng_random32, trng_read128, h, normBlock]

/-- A failed hardware read makes `trng_random32` fail after one read. -/
theorem random32_none (σ : Nat → Option Block) (k : Nat) (h : σ k = none) :
    trng_random32 true false σ k = ⟨false, none, 1⟩ := by
  simp [trng_random32, trng_read128, h]

/-- `trng_random32` writes its out-location exactly when it succeeds. -/
theorem random32_out_ok (initialized outNull : Bool) (σ : Nat → Option Block)
    (k : Nat) :
    (trng_random32 initialized outNull σ k).out.isSome
      = (trng_random32 initialized outNull σ k).ok := by
  cases outNull <;> cases initialized <;> cases hσ : σ k <;>
    simp [trng_random32, trng_read128, hσ]

/-- `trng_random16` writes its out-location exactly when it succeeds. -/
theorem random16_out_ok (initialized outNull : Bool) (σ : Nat → Option Block)
    (k : Nat) :
    (trng_random16 initialized outNull σ k).out.isSome
      = (trng_random16 initialized outNull σ k).ok := by
  cases outNull <;> cases initialized <;> cases hσ : σ k <;>
    simp [trng_random16, trng_random32, trng_read128, hσ]

/-- `trng_random8` writes its out-location exactly when it succeeds. -/
theorem random8_out_ok (initialized outNull : Bool) (σ : Nat → Option Block)
    (k : Nat) :
    (trng_random8 initialized outNull σ k).out.isSome
      = (trng_random8 initialized outNull σ k).ok := by
  cases outNull <;> cases initialized <;> cases hσ : σ k <;>
    simp [trng_random8, trng_random32, trng_read128, hσ]

/-- A block's byte representation has 16 bytes. -/
theorem blockBytes_length (b : Block) : (blockBytes b).length = 16 := by
  simp [blockBytes, wordBytes]

/-- Writing inside the buffer preserves its length. -/
theorem writeBytes_length (buf bs : List Nat) (i : Nat)
    (h : i + bs.length ≤ buf.length) :
    (writeBytes buf i bs).length = buf.length := by
  simp [writeBytes, List.length_take]
  omega

/-- The buffer after a write, up to the end of the write, is the untouched
part followed by the written bytes. -/
theorem writeBytes_take (buf bs : List Nat) (i : Nat) (h : i ≤ buf.length) :
    (writeBytes buf i bs).take (i + bs.length) = buf.take i ++ bs := by
  have hA : (buf.take i ++ bs).length = i + bs.length := by
    simp [List.length_take]
    omega
  calc (writeBytes buf i bs).take (i + bs.length)
      = ((buf.take i ++ bs) ++ buf.drop (i + bs.length)).take
          ((buf.take i ++ bs).length) := by
        rw [writeBytes, List.append_assoc, hA]
    _ = buf.take i ++ bs := List.take_left _ _

/-- The buffer after a write is unchanged beyond any point past the
write. -/
theorem writeBytes_drop (buf bs : List Nat) (i len : Nat)
    (hi : i ≤ buf.length) (hlen : i + bs.length ≤ len) :
    (writeBytes buf i bs).drop len = buf.drop len := by
  have hA : (buf.take i ++ bs).length = i + bs.length := by
    simp [List.length_take]
    omega
  calc (writeBytes buf i bs).drop len
      = ((buf.take i ++ bs) ++ buf.drop (i + bs.length)).drop
          ((buf.take i ++ bs).length + (len - (i + bs.length))) := by
        rw [writeBytes, List.append_assoc, hA]
        congr 1
        omega
    _ = (buf.drop (i + bs.length)).drop (len - (i + bs.length)) :=
        List.drop_append _
    _ = buf.drop ((i + bs.length) + (len - (i + bs.length))) :=
        List.drop_drop _ _ _
    _ = buf.drop len := by
        congr 1
        omega

/-- Unfolding one iteration of the fill loop on a successful read. -/
theorem fillLoop_step (σ : Nat → Option Block) (len k i : Nat)
    (buf : List Nat) (b : Block) (chunk : Nat) (h : i < len)
    (hb : σ k = some b)
    (hchunk : chunk = if len - i < 16 then len - i else 16) :
    fillLoop σ len k i buf =
      ((fillLoop σ len (k + 1) (i + chunk)
          (writeBytes buf i ((blockBytes (normBlock b)).take chunk))).1,
       (fillLoop σ len (k + 1) (i + chunk)
          (writeBytes buf i ((blockBytes (normBlock b)).take chunk))).2.1,
       (fillLoop σ len (k + 1) (i + chunk)
          (writeBytes buf i ((blockBytes (normBlock b)).take chunk))).2.2
         + 1) := by
  subst hchunk
  rw [fillLoop]
  simp [h, hb]

/-- Unfolding one iteration of the fill loop on a failed read. -/
theorem fillLoop_fail_step (σ : Nat → Option Block) (len k i : Nat)
    (buf : List Nat) (h : i < len) (hb : σ k = none) :
    fillLoop σ len k i buf = (false, buf, 1) := by
  rw [fillLoop]
  simp [h, hb]

/-- The fill loop stops once the cursor reaches the requested length. -/
theorem fillLoop_stop (σ : Nat → Option Block) (len k i : Nat)
    (buf : List Nat) (h : ¬ i < len) :
    fillLoop σ len k i buf = (true, buf, 0) := by
  rw [fillLoop]
  simp [h]

/-- Unfolding one step of the expected fill bytes. -/
theorem expectedFill_step (σ : Nat → Option Block) (k len chunk : Nat)
    (h : len ≠ 0) (hchunk : chunk = if len < 16 then len else 16) :
    expectedFill σ k len
      = (blockBytes (normBlock ((σ k).getD default))).take chunk ++
          expectedFill σ (k + 1) (len - chunk) := by
  subst hchunk
  rw [expectedFill]
  simp [h]

/-- Invariant of the fill loop under an always-succeeding source: it
succeeds, deposits the expected bytes over `buf[i .. len)` leaving the
rest of the buffer untouched, and performs `⌈(len - i) / 16⌉` reads. -/
theorem fillLoop_allSome (σ : Nat → Option Block) (hσ : ∀ j, (σ j).isSome)
    (len : Nat) :
    ∀ d k i buf, len - i ≤ d → i ≤ len → len ≤ buf.length →
    fillLoop σ len k i buf
      = (true, buf.take i ++ expectedFill σ k (len - i) ++ buf.drop len,
          (len - i + 15) / 16) := by
  intro d
  induction d with
  | zero =>
    intro k i buf hd hi hlen
    have hie : i = len := by omega
    rw [fillLoop_stop σ len k i buf (by omega), hie, Nat.sub_self,
      expectedFill]
    simp
  | succ d ih =>
    intro k i buf hd hi hlen
    by_cases hcase : i < len
    · obtain ⟨b, hb⟩ := Option.isSome_iff_exists.mp (hσ k)
      obtain ⟨chunk, hchunk⟩ :
          ∃ c, c = if len - i < 16 then len - i else 16 := ⟨_, rfl⟩
      have hchunk1 : 1 ≤ chunk := by rw [hchunk]; split <;> omega
      have hchunk16 : chunk ≤ 16 := by rw [hchunk]; split <;> omega
      have hchunklen : i + chunk ≤ len := by rw [hchunk]; split <;> omega
      have hbs : ((blockBytes (normBlock b)).take chunk).length = chunk := by
        rw [List.length_take, blockBytes_length]
        omega
      have hbuf2len :
          (writeBytes buf i ((blockBytes (normBlock b)).take chunk)).length
            = buf.length := by
        apply writeBytes_length
        rw [hbs]; omega
      have hrec := ih (k + 1) (i + chunk)
        (writeBytes buf i ((blockBytes (normBlock b)).take chunk))
        (by omega) (by omega) (by rw [hbuf2len]; omega)
      rw [fillLoop_step σ len k i buf b chunk hcase hb hchunk, hrec]
      have ht : (writeBytes buf i
            ((blockBytes (normBlock b)).take chunk)).take (i + chunk)
          = buf.take i ++ (blockBytes (normBlock b)).take chunk := by
        have := writeBytes_take buf ((blockBytes (normBlock b)).take chunk)
          i (by omega)
        rwa [hbs] at this
      have hdp : (writeBytes buf i
            ((blockBytes (normBlock b)).take chunk)).drop len
          = buf.drop len := by
        apply writeBytes_drop _ _ _ _ (by omega)
        rw [hbs]; omega
      have hexp : expectedFill σ k (len - i)
          = (blockBytes (normBlock b)).take chunk ++
              expectedFill σ (k + 1) (len - (i + chunk)) := by
        have hstep := expectedFill_step σ k (len - i) chunk (by omega) hchunk
        rw [hstep, hb]
        simp only [Option.getD_some]
        rw [show len - i - chunk = len - (i + chunk) by omega]
      have harith : (len - (i + chunk) + 15) / 16 + 1 = (len - i + 15) / 16 := by
        rcases Nat.lt_or_ge (len - i) 16 with hlt | hge
        · rw [hchunk, if_pos hlt] at hchunk1 hchunklen ⊢
          omega
        · rw [hchunk, if_neg (by omega)] at hchunk1 hchunklen ⊢
          omega
      rw [ht, hdp, hexp, harith]
      simp [List.append_assoc]
    · have hie : i = len := by omega
      rw [fillLoop_stop σ len k i buf (by omega), hie, Nat.sub_self,
        expectedFill]
      simp

/-- Invariant of the fill loop when the `(m+1)`-th read from the current
position fails: the loop aborts with failure after `m + 1` reads, having
deposited exactly the `16 * m` bytes of the `m` successful reads, the rest
of the buffer untouched. -/
theorem fillLoop_failAfter (σ : Nat → Option Block) (len : Nat) :
    ∀ m k i buf, (∀ j, j < m → (σ (k + j)).isSome) → σ (k + m) = none →
    i + 16 * m < len → len ≤ buf.length →
    fillLoop σ len k i buf
      = (false, buf.take i ++ fullBlocksBytes σ k m ++ buf.drop (i + 16 * m),
          m + 1) := by
  intro m
  induction m with
  | zero =>
    intro k i buf _ hfail hreach _
    rw [Nat.add_zero] at hfail
    rw [fillLoop_fail_step σ len k i buf (by omega) hfail]
    simp [fullBlocksBytes]
  | succ m ih =>
    intro k i buf hsucc hfail hreach hlen
    obtain ⟨b, hb⟩ := Option.isSome_iff_exists.mp
      (by simpa using hsucc 0 (by omega))
    have hchunk : (16 : Nat) = if len - i < 16 then len - i else 16 := by
      rw [if_neg (by omega)]
    have hbs : ((blockBytes (normBlock b)).take 16).length = 16 := by
      rw [List.length_take, blockBytes_length]
      omega
    have htake16 : (blockBytes (normBlock b)).take 16
        = blockBytes (normBlock b) := by
      apply List.take_of_length_le
      rw [blockBytes_length]
    have hbuf2len :
        (writeBytes buf i ((blockBytes (normBlock b)).take 16)).length
          = buf.length := by
      apply writeBytes_length
      rw [hbs]; omega
    have hrec := ih (k + 1) (i + 16)
      (writeBytes buf i ((blockBytes (normBlock b)).take 16))
      (fun j hj => by
        have := hsucc (j + 1) (by omega)
        rwa [show k + (j + 1) = k + 1 + j by omega] at this)
      (by rwa [show k + 1 + m = k + (m + 1) by omega])
      (by omega) (by rw [hbuf2len]; omega)
    rw [fillLoop_step σ len k i buf b 16 (by omega) hb hchunk, hrec]
    have ht : (writeBytes buf i
          ((blockBytes (normBlock b)).take 16)).take (i + 16)
        = buf.take i ++ (blockBytes (normBlock b)).take 16 := by
      have := writeBytes_take buf ((blockBytes (normBlock b)).take 16)
        i (by omega)
      rwa [hbs] at this
    have hdp : (writeBytes buf i
          ((blockBytes (normBlock b)).take 16)).drop (i + 16 + 16 * m)
        = buf.drop (i + 16 + 16 * m) := by
      apply writeBytes_drop _ _ _ _ (by omega)
      rw [hbs]; omega
    have hfull : fullBlocksBytes σ k (m + 1)
        = blockBytes (normBlock b) ++ fullBlocksBytes σ (k + 1) m := by
      rw [fullBlocksBytes, hb]
      simp
    rw [ht, hdp, htake16, hfull]
    rw [show i + 16 + 16 * m = i + 16 * (m + 1) by omega]
    simp [List.append_assoc]

/-- `m` full blocks contribute `16 * m` bytes. -/
theorem fullBlocksBytes_length (σ : Nat → Option Block) :
    ∀ m k, (fullBlocksBytes σ k m).length = 16 * m := by
  intro m
  induction m with
  | zero => intro k; simp [fullBlocksBytes]
  | succ m ih =>
    intro k
    rw [fullBlocksBytes]
    simp [blockBytes_length, ih]
    omega

/-- Running the rejection loop past `m` discarded draws: if the first `m`
draws succeed but fall below the threshold, the loop's outcome is decided
by draw `m`: a failed read aborts with failure after `m + 1` reads, and an
accepted value `val ≥ threshold` returns `min + (val % range)` after
`m + 1` reads. -/
theorem rangeLoop_run (σ : Nat → Option Block) (minv range threshold : Nat) :
    ∀ m fuel k,
    (∀ j, j < m → ∃ b, σ (k + j) = some b ∧ b.w0 % U32 < threshold) →
    m < fuel →
    ((σ (k + m) = none →
        rangeLoop true σ minv range threshold fuel k = some (none, m + 1)) ∧
     (∀ b, σ (k + m) = some b → threshold ≤ b.w0 % U32 →
        rangeLoop true σ minv range threshold fuel k
          = some (some (minv + (b.w0 % U32) % range), m + 1))) := by
  intro m
  induction m with
  | zero =>
    intro fuel k _ hfuel
    obtain ⟨f, rfl⟩ : ∃ f, fuel = f + 1 := ⟨fuel - 1, by omega⟩
    constructor
    · intro hnone
      rw [Nat.add_zero] at hnone
      simp [rangeLoop, random32_none σ k hnone]
    · intro b hb hacc
      rw [Nat.add_zero] at hb
      simp [rangeLoop, random32_some σ k b hb, hacc]
  | succ m ih =>
    intro fuel k hdisc hfuel
    obtain ⟨f, rfl⟩ : ∃ f, fuel = f + 1 := ⟨fuel - 1, by omega⟩
    obtain ⟨b0, hb0, hlt⟩ := hdisc 0 (by omega)
    rw [Nat.add_zero] at hb0
    have hshift : ∀ j, j < m →
        ∃ b, σ (k + 1 + j) = some b ∧ b.w0 % U32 < threshold := by
      intro j hj
      have := hdisc (j + 1) (by omega)
      rwa [show k + (j + 1) = k + 1 + j by omega] at this
    have ihk := ih f (k + 1) hshift (by omega)
    have hrej : ¬ threshold ≤ b0.w0 % U32 := by omega
    constructor
    · intro hnone
      rw [show k + (m + 1) = k + 1 + m by omega] at hnone
      have hrec := ihk.1 hnone
      simp [rangeLoop, random32_some σ k b0 hb0, hrej, hrec]
    · intro b hb hacc
      rw [show k + (m + 1) = k + 1 + m by omega] at hb
      have hrec := ihk.2 b hb hacc
      simp [rangeLoop, random32_some σ k b0 hb0, hrej, hrec]

/-- Any result the rejection loop produces under an always-succeeding
source is an accepted draw: some value `val < 2^32` with
`threshold ≤ val`, mapped to `min + (val % range)`. -/
theorem rangeLoop_allSome (σ : Nat → Option Block)
    (hσ : ∀ j, (σ j).isSome) (minv range threshold : Nat) :
    ∀ fuel k p, rangeLoop true σ minv range threshold fuel k = some p →
    ∃ val n, val < U32 ∧ threshold ≤ val ∧
      p = (some (minv + val % range), n) := by
  intro fuel
  induction fuel with
  | zero => intro k p h; simp [rangeLoop] at h
  | succ f ih =>
    intro k p h
    obtain ⟨b, hb⟩ := Option.isSome_iff_exists.mp (hσ k)
    rw [rangeLoop] at h
    rw [random32_some σ k b hb] at h
    simp only at h
    by_cases hacc : threshold ≤ b.w0 % U32
    · rw [if_pos hacc] at h
      exact ⟨b.w0 % U32, 1, Nat.mod_lt _ (by simp [U32]), hacc,
        by simpa using h.symm⟩
    · rw [if_neg hacc] at h
      cases hrec : rangeLoop true σ minv range threshold f (k + 1) with
      | none => rw [hrec] at h; simp at h
      | some q =>
        rw [hrec] at h
        obtain ⟨val, n, hval, hth, hq⟩ := ih (k + 1) q hrec
        subst hq
        simp at h
        exact ⟨val, n + 1, hval, hth, by simp [← h]⟩

/-! ### Claim theorems -/

/-- Claim C1: for `min ≤ max` with nonzero wrapped `range = max - min + 1`,
`trng_randomRange` computes `threshold = (UINT32_MAX - range + 1) % range`
(32-bit wrapping, embedded as `thresholdOf`) and repeatedly draws via
`trng_random32`: after `m` successful draws below the threshold are
discarded, a failed draw aborts with failure (`m + 1` reads), and the
first draw `val ≥ threshold` yields success writing `min + (val % range)`
(`m + 1` reads). -/
theorem randomRange_rejection_spec (σ : Nat → Option Block)
    (minv maxv m fuel k : Nat) (hle : minv ≤ maxv)
    (hr : rangeOf minv maxv ≠ 0)
    (hdisc : ∀ j, j < m → ∃ b, σ (k + j) = some b ∧
      b.w0 % U32 < thresholdOf (rangeOf minv maxv))
    (hfuel : m < fuel) :
    (σ (k + m) = none →
      trng_randomRange true false minv maxv σ fuel k
        = some ⟨false, none, m + 1⟩) ∧
    (∀ b, σ (k + m) = some b →
      thresholdOf (rangeOf minv maxv) ≤ b.w0 % U32 →
      trng_randomRange true false minv maxv σ fuel k
        = some ⟨true, some (minv + (b.w0 % U32) % rangeOf minv maxv),
            m + 1⟩) := by
  have hrun := rangeLoop_run σ minv (rangeOf minv maxv)
    (thresholdOf (rangeOf minv maxv)) m fuel k hdisc hfuel
  constructor
  · intro hnone
    have hl := hrun.1 hnone
    simp [trng_randomRange, hle, hr, hl]
  · intro b hb hacc
    have hl := hrun.2 b hb hacc
    simp [trng_randomRange, hle, hr, hl]

/-- Witness for C1: range `[0, 9]` (threshold `6`), first draw `3`
discarded, second draw `7` accepted: result `7` after two reads. -/
theorem randomRange_rejection_spec_witness :
    trng_randomRange true false 0 9
      (fun j => if j = 0 then some ⟨3, 0, 0, 0⟩ else some ⟨7, 0, 0, 0⟩) 2 0
      = some ⟨true, some 7, 2⟩ := by
  have h := (randomRange_rejection_spec
      (fun j => if j = 0 then some ⟨3, 0, 0, 0⟩ else some ⟨7, 0, 0, 0⟩)
      0 9 1 2 0 (by decide) (by decide)
      (fun j hj => by
        have hj0 : j = 0 := by omega
        subst hj0
        exact ⟨⟨3, 0, 0, 0⟩, rfl, by decide⟩)
      (by decide)).2 ⟨7, 0, 0, 0⟩ rfl (by decide)
  simpa [rangeOf, U32] using h

/-- Claim C2: for `min ≤ max` under an always-succeeding source, any value
`trng_randomRange` returns is a success whose written value `v` satisfies
`min ≤ v ≤ max` (the fuelled loop returning `some r` means the C loop
terminated with `r`). -/
theorem randomRange_in_range (σ : Nat → Option Block) (minv maxv fuel k : Nat)
    (hle : minv ≤ maxv) (hmax : maxv < U32) (hσ : ∀ j, (σ j).isSome)
    (r : Res Nat)
    (hres : trng_randomRange true false minv maxv σ fuel k = some r) :
    r.ok = true ∧ ∃ v, r.out = some v ∧ minv ≤ v ∧ v ≤ maxv := by
  by_cases hz : rangeOf minv maxv = 0
  · have hm0 : minv = 0 ∧ maxv = U32 - 1 := by
      simp only [rangeOf, U32] at hz
      simp only [U32] at hmax ⊢
      omega
    obtain ⟨b, hb⟩ := Option.isSome_iff_exists.mp (hσ k)
    simp [trng_randomRange, hle, hz, random32_some σ k b hb] at hres
    refine hres ▸ ⟨rfl, b.w0 % U32, rfl, ?_, ?_⟩
    · omega
    · have : b.w0 % U32 < U32 := Nat.mod_lt _ (by simp [U32])
      omega
  · have hrange : rangeOf minv maxv = maxv - minv + 1 := by
      simp only [rangeOf, U32] at hz ⊢
      simp only [U32] at hmax
      omega
    simp only [trng_randomRange, Bool.false_eq_true, if_false, hle, if_true,
      if_neg hz] at hres
    cases hloop : rangeLoop true σ minv (rangeOf minv maxv)
        (thresholdOf (rangeOf minv maxv)) fuel k with
    | none => rw [hloop] at hres; simp at hres
    | some p =>
      rw [hloop] at hres
      obtain ⟨val, n, hval, _, hp⟩ :=
        rangeLoop_allSome σ hσ minv (rangeOf minv maxv)
          (thresholdOf (rangeOf minv maxv)) fuel k p hloop
      subst hp
      simp at hres
      have hmod : val % rangeOf minv maxv < rangeOf minv maxv :=
        Nat.mod_lt _ (by omega)
      refine ⟨by simp [← hres], minv + val % rangeOf minv maxv,
        by simp [← hres], by omega, by omega⟩

/-- Witness for C2: range `[3, 12]` with a source always drawing `10`
(threshold `6`, accepted at once): result `3`, which lies in `[3, 12]`. -/
theorem randomRange_in_range_witness :
    (⟨true, some 3, 1⟩ : Res Nat).ok = true ∧
    ∃ v, (⟨true, some 3, 1⟩ : Res Nat).out = some v ∧ 3 ≤ v ∧ v ≤ 12 :=
  randomRange_in_range (fun _ => some ⟨10, 0, 0, 0⟩) 3 12 1 0 (by decide)
    (by decide) (fun _ => rfl) ⟨true, some 3, 1⟩ (by decide)

/-- Claim C3: under a ready, always-succeeding source, `trng_fillRandom`
on a buffer of `len ≤ length` bytes succeeds with exactly `⌈len/16⌉` block
reads, the filled prefix being chunks of `min(remaining, 16)` bytes from
successive fresh blocks (`expectedFill`) and the rest of the buffer
untouched; a `0`-length fill succeeds with zero reads, and a 17-byte fill
performs 2 reads with byte 17 equal to the first byte of the second
block's byte representation. -/
theorem fillRandom_success_spec (σ : Nat → Option Block)
    (hσ : ∀ j, (σ j).isSome) (k : Nat) (buf : List Nat) (len : Nat)
    (hlen : len ≤ buf.length) :
    trng_fillRandom true false σ k buf len
      = (true, expectedFill σ k len ++ buf.drop len, (len + 15) / 16) ∧
    trng_fillRandom true false σ k buf 0 = (true, buf, 0) ∧
    (buf.length = 17 →
      (trng_fillRandom true false σ k buf 17).2.1[16]?
        = (blockBytes (normBlock ((σ (k + 1)).getD default)))[0]?) := by
  refine ⟨?_, ?_, ?_⟩
  · have h := fillLoop_allSome σ hσ len len k 0 buf (by omega) (by omega) hlen
    rw [trng_fillRandom]
    simpa using h
  · rw [trng_fillRandom]
    simp [fillLoop_stop σ 0 k 0 buf (by omega)]
  · intro h17
    have h := fillLoop_allSome σ hσ 17 17 k 0 buf (by omega) (by omega)
      (by omega)
    have h2 : trng_fillRandom true false σ k buf 17
        = (true, expectedFill σ k 17 ++ buf.drop 17, 2) := by
      rw [trng_fillRandom]
      simpa using h
    rw [h2]
    have hdrop : buf.drop 17 = [] := List.drop_eq_nil_of_le (by omega)
    rw [hdrop, List.append_nil]
    have e1 := expectedFill_step σ k 17 16 (by omega) (by norm_num)
    have e2 := expectedFill_step σ (k + 1) 1 1 (by omega) (by norm_num)
    norm_num at e1 e2
    rw [e1, e2, expectedFill]
    simp only [List.append_nil, if_true, dif_pos rfl]
    have hA : ((blockBytes (normBlock ((σ k).getD default))).take 16).length
        = 16 := by
      rw [List.length_take, blockBytes_length]
      omega
    rw [List.getElem?_append_right (by rw [hA]), hA, Nat.sub_self]
    exact @List.getElem?_take_of_lt Nat
      (blockBytes (normBlock ((σ (k + 1)).getD default))) 1 0 (by omega)

/-- Witness for C3: an always-succeeding source filling a 17-byte buffer:
2 reads, byte 17 is the first byte of the second block. -/
theorem fillRandom_success_spec_witness :
    trng_fillRandom true false (fun j => some ⟨7 + j, 0, 0, 0⟩) 0
        (List.replicate 17 0) 17
      = (true, expectedFill (fun j => some ⟨7 + j, 0, 0, 0⟩) 0 17 ++
          (List.replicate 17 0).drop 17, (17 + 15) / 16) ∧
    trng_fillRandom true false (fun j => some ⟨7 + j, 0, 0, 0⟩) 0
        (List.replicate 17 0) 0 = (true, List.replicate 17 0, 0) ∧
    ((List.replicate 17 0 : List Nat).length = 17 →
      (trng_fillRandom true false (fun j => some ⟨7 + j, 0, 0, 0⟩) 0
          (List.replicate 17 0) 17).2.1[16]?
        = (blockBytes (normBlock (((fun j => some (⟨7 + j, 0, 0, 0⟩ : Block))
            (0 + 1)).getD default)))[0]?) :=
  fillRandom_success_spec (fun j => some ⟨7 + j, 0, 0, 0⟩) (fun _ => rfl) 0
    (List.replicate 17 0) 17 (by simp)

/-- Claim C4: if reads `1..m` succeed and read `m + 1` fails,
`trng_fillRandom` fails after exactly `m + 1` reads having written exactly
the `16 * m` bytes of the successful blocks; those bytes and the untouched
tail remain in the buffer (no rollback). -/
theorem fillRandom_partial_on_failure (σ : Nat → Option Block)
    (m k : Nat) (buf : List Nat) (len : Nat)
    (hsucc : ∀ j, j < m → (σ (k + j)).isSome) (hfail : σ (k + m) = none)
    (hreach : 16 * m < len) (hlen : len ≤ buf.length) :
    trng_fillRandom true false σ k buf len
      = (false, fullBlocksBytes σ k m ++ buf.drop (16 * m), m + 1) ∧
    (fullBlocksBytes σ k m).length = 16 * m := by
  refine ⟨?_, fullBlocksBytes_length σ m k⟩
  have h := fillLoop_failAfter σ len m k 0 buf hsucc hfail (by omega) hlen
  rw [trng_fillRandom]
  simpa using h

/-- Witness for C4: a source failing on the 3rd read during a 50-byte
fill: failure after 3 reads, exactly 32 bytes written, tail untouched. -/
theorem fillRandom_partial_on_failure_witness :
    trng_fillRandom true false
        (fun j => if j < 2 then some ⟨j, 0, 0, 0⟩ else none) 0
        (List.replicate 50 3) 50
      = (false, fullBlocksBytes
            (fun j => if j < 2 then some ⟨j, 0, 0, 0⟩ else none) 0 2 ++
          (List.replicate 50 3).drop (16 * 2), 2 + 1) ∧
    (fullBlocksBytes (fun j => if j < 2 then some ⟨j, 0, 0, 0⟩ else none)
        0 2).length = 16 * 2 :=
  fillRandom_partial_on_failure
    (fun j => if j < 2 then some ⟨j, 0, 0, 0⟩ else none) 2 0
    (List.replicate 50 3) 50
    (fun j hj => by
      have : j = 0 ∨ j = 1 := by omega
      rcases this with h | h <;> subst h <;> rfl)
    rfl (by omega) (by simp)

/-- Claim C5: with the readiness flag clear, every sampling operation
(`trng_read128`, `trng_random32`, `trng_random16`, `trng_random8`,
`trng_randomRange`, `trng_fillRandom`) returns failure and performs zero
hardware block reads. -/
theorem not_ready_fails_without_reads (outNull bufNull : Bool)
    (σ : Nat → Option Block) (k fuel minv maxv len : Nat) (buf : List Nat) :
    trng_read128 false outNull σ k = ⟨false, none, 0⟩ ∧
    trng_random32 false outNull σ k = ⟨false, none, 0⟩ ∧
    trng_random16 false outNull σ k = ⟨false, none, 0⟩ ∧
    trng_random8 false outNull σ k = ⟨false, none, 0⟩ ∧
    trng_randomRange false outNull minv maxv σ (fuel + 1) k
      = some ⟨false, none, 0⟩ ∧
    trng_fillRandom false bufNull σ k buf len = (false, buf, 0) := by
  have h128 : ∀ oN, trng_read128 false oN σ k = ⟨false, none, 0⟩ := by
    intro oN; simp [trng_read128]
  have h32 : ∀ oN, trng_random32 false oN σ k = ⟨false, none, 0⟩ := by
    intro oN; cases oN <;> simp [trng_random32, h128]
  refine ⟨h128 outNull, h32 outNull, ?_, ?_, ?_, ?_⟩
  · cases outNull <;> simp [trng_random16, h32]
  · cases outNull <;> simp [trng_random8, h32]
  · cases outNull with
    | true => simp [trng_randomRange]
    | false =>
      by_cases hle : minv ≤ maxv
      · by_cases hr : rangeOf minv maxv = 0
        · simp [trng_randomRange, hle, hr, h32]
        · simp [trng_randomRange, hle, hr, rangeLoop, h32]
      · simp [trng_randomRange, hle]
  · simp [trng_fillRandom]

/-- Claim C6: `trng_randomRange(out, 0, 0xFFFFFFFF)` takes the wrapped
`range == 0` shortcut: for every fuel (even fuel `0`, so the rejection
loop is never entered and no threshold is computed) it returns exactly one
raw `trng_random32` draw unmodified. -/
theorem randomRange_full_domain (initialized : Bool) (σ : Nat → Option Block)
    (fuel k : Nat) :
    trng_randomRange initialized false 0 (U32 - 1) σ fuel k
      = some (trng_random32 initialized false σ k) ∧
    trng_randomRange true false 0 (U32 - 1) σ fuel k
      = some ⟨(σ k).isSome, (σ k).map (fun b => b.w0 % U32), 1⟩ := by
  have hz : rangeOf 0 (U32 - 1) = 0 := by simp [rangeOf, U32]
  constructor
  · simp [trng_randomRange, hz]
  · cases hσ : σ k with
    | none => simp [trng_randomRange, hz, random32_none σ k hσ]
    | some b => simp [trng_randomRange, hz, random32_some σ k b hσ]

/-- Claim C7: for `min > max`, `trng_randomRange` fails immediately
(invalid arguments) with zero hardware block reads. -/
theorem randomRange_invalid_args (initialized : Bool) (minv maxv : Nat)
    (σ : Nat → Option Block) (fuel k : Nat) (h : maxv < minv) :
    trng_randomRange initialized false minv maxv σ fuel k
      = some ⟨false, none, 0⟩ := by
  have : ¬ minv ≤ maxv := by omega
  simp [trng_randomRange, this]

/-- Witness for C7: `trng_randomRange(out, 5, 3)` fails with no reads. -/
theorem randomRange_invalid_args_witness :
    trng_randomRange true false 5 3 (fun _ => some ⟨0, 0, 0, 0⟩) 1 0
      = some ⟨false, none, 0⟩ :=
  randomRange_invalid_args true 5 3 (fun _ => some ⟨0, 0, 0, 0⟩) 1 0 (by decide)

/-- Claim C8: `trng_random32` returns the first word of one fresh block
read; `trng_random16` and `trng_random8` return exactly the low 16 and
low 8 bits of a fresh 32-bit draw obtained via `trng_random32`, and every
one of the three calls performs exactly one hardware block read (no block
is cached or shared across calls). -/
theorem random16_random8_truncate (σ : Nat → Option Block) (k : Nat) :
    (trng_random32 true false σ k).out = (σ k).map (fun b => b.w0 % U32) ∧
    (trng_random16 true false σ k).out
      = ((trng_random32 true false σ k).out).map (fun v => v % 2 ^ 16) ∧
    (trng_random8 true false σ k).out
      = ((trng_random32 true false σ k).out).map (fun v => v % 2 ^ 8) ∧
    (trng_random16 true false σ k).ok = (trng_random32 true false σ k).ok ∧
    (trng_random8 true false σ k).ok = (trng_random32 true false σ k).ok ∧
    (trng_random32 true false σ k).reads = 1 ∧
    (trng_random16 true false σ k).reads = 1 ∧
    (trng_random8 true false σ k).reads = 1 := by
  cases hσ : σ k with
  | none =>
    simp [trng_random16, trng_random8, random32_none σ k hσ, hσ]
  | some b =>
    simp [trng_random16, trng_random8, random32_some σ k b hσ, hσ]

/-- Claim C9: `trng_randomRange(out, 5, 5)` returns success with
`*out = 5` after exactly one draw whenever the source succeeds. -/
theorem randomRange_equal_bounds (σ : Nat → Option Block) (fuel k : Nat)
    (b : Block) (h : σ k = some b) :
    trng_randomRange true false 5 5 σ (fuel + 1) k
      = some ⟨true, some 5, 1⟩ := by
  have hr : rangeOf 5 5 = 1 := by simp [rangeOf, U32]
  have hth : thresholdOf 1 = 0 := by
    simp only [thresholdOf]
    omega
  simp [trng_randomRange, hr, hth, rangeLoop, random32_some σ k b h,
    Nat.mod_one]

/-- Witness for C9: with a concrete always-succeeding source,
`trng_randomRange(out, 5, 5)` returns `5` in one read. -/
theorem randomRange_equal_bounds_witness :
    trng_randomRange true false 5 5 (fun _ => some ⟨77, 1, 2, 3⟩) 1 0
      = some ⟨true, some 5, 1⟩ :=
  randomRange_equal_bounds (fun _ => some ⟨77, 1, 2, 3⟩) 0 0 ⟨77, 1, 2, 3⟩ rfl

/-- Claim C10: whenever a scalar operation (`trng_random32`,
`trng_random16`, `trng_random8`, `trng_randomRange`) returns failure —
null out-pointer, invalid arguments, source not ready, or a failed
hardware read — the out-location is never written. -/
theorem scalar_failure_writes_nothing (initialized outNull : Bool)
    (minv maxv : Nat) (σ : Nat → Option Block) (fuel k : Nat) :
    ((trng_random32 initialized outNull σ k).ok = false →
      (trng_random32 initialized outNull σ k).out = none) ∧
    ((trng_random16 initialized outNull σ k).ok = false →
      (trng_random16 initialized outNull σ k).out = none) ∧
    ((trng_random8 initialized outNull σ k).ok = false →
      (trng_random8 initialized outNull σ k).out = none) ∧
    (∀ r : Res Nat, trng_randomRange initialized outNull minv maxv σ fuel k
        = some r → r.ok = false → r.out = none) := by
  have hself : ∀ (α : Type) (r : Res α), r.out.isSome = r.ok → r.ok = false →
      r.out = none := by
    intro α r h hf
    rw [hf] at h
    exact Option.not_isSome_iff_eq_none.mp (by simp [h])
  refine ⟨hself _ _ (random32_out_ok ..), hself _ _ (random16_out_ok ..),
    hself _ _ (random8_out_ok ..), ?_⟩
  intro r hres hok
  cases outNull with
  | true =>
    simp [trng_randomRange] at hres
    simp [← hres]
  | false =>
    by_cases hle : minv ≤ maxv
    · by_cases hz : rangeOf minv maxv = 0
      · simp [trng_randomRange, hle, hz] at hres
        have := random32_out_ok initialized false σ k
        rw [hres] at this
        exact hself _ _ this hok
      · simp only [trng_randomRange, hle, hz, Bool.false_eq_true,
          if_false, if_true, if_neg hz] at hres
        cases hloop : rangeLoop initialized σ minv (rangeOf minv maxv)
            (thresholdOf (rangeOf minv maxv)) fuel k with
        | none => rw [hloop] at hres; simp at hres
        | some p =>
          rw [hloop] at hres
          simp at hres
          have : r.out.isSome = r.ok := by rw [← hres]
          exact hself _ _ this hok
    · simp [trng_randomRange, hle] at hres
      simp [← hres]

/-- Witness for C10: a not-ready `trng_random32` call fails and leaves the
out-location unwritten, and a failed range call writes nothing. -/
theorem scalar_failure_writes_nothing_witness :
    (trng_random32 false false (fun _ => some ⟨9, 9, 9, 9⟩) 0).out = none ∧
    (⟨false, none, 0⟩ : Res Nat).out = none :=
  ⟨(scalar_failure_writes_nothing false false 0 1 (fun _ => some ⟨9, 9, 9, 9⟩)
      1 0).1 (by decide),
   (scalar_failure_writes_nothing true false 5 3 (fun _ => some ⟨9, 9, 9, 9⟩)
      1 0).2.2.2 ⟨false, none, 0⟩ (by decide) (by decide)⟩

end Trng
